import Mathlib

/-!
Verification of the snarkVM integer circuit gadget
(`circuits/types/integers/src/lib.rs`).

The Rust source is shallowly embedded below.  Machine integers of a
width/signedness descriptor `I` are represented by their two's-complement
bit pattern, a `Nat` strictly below `2 ^ I.bits`; wrapping operations are
explicit `% 2 ^ I.bits` arithmetic.  Boolean circuit wires are records
carrying a visibility mode and a revealed boolean value; the constraint
bookkeeping of the environment is out of scope here (no claim below is
about constraint counts).  Collaborator code that lives in the snarkVM
repository but not under the file above (the boolean wire type, the
environment's mode ejection, mode parsing/printing, `from_bits_le`,
`type_name`) is modelled from the design specification and marked
`Modelled from the spec:` in its doc comment.
-/

/-- Visibility mode of a wire or integer: constant / public / private. -/
inductive Mode : Type where
  | Constant : Mode
  | Public : Mode
  | Private : Mode
deriving DecidableEq, Repr

/-- Modelled from the spec: the boolean wire type (crate
`snarkvm_circuits_types_boolean`, not under `src/`) exposes its mode and
its revealed value; its internal constraint encoding is out of scope. -/
structure BooleanW : Type where
  mode : Mode
  value : Bool
deriving DecidableEq, Repr

/-- Modelled from the spec: `Boolean::new(mode, value)` allocates one wire
with the given mode and revealed value. -/
def BooleanW.new (mode : Mode) (value : Bool) : BooleanW :=
  { mode := mode, value := value }

/-- Modelled from the spec: the join of two modes, where a more private
mode dominates a more public one (`Constant < Public < Private`). -/
def Mode.lub : Mode → Mode → Mode
  | Mode.Constant, b => b
  | a, Mode.Constant => a
  | Mode.Private, _ => Mode.Private
  | _, Mode.Private => Mode.Private
  | Mode.Public, Mode.Public => Mode.Public

/-- Modelled from the spec: `E::eject_mode` over a collection of wires
returns the mode dominating all constituent wires. -/
def Env.eject_mode (bs : List BooleanW) : Mode :=
  bs.foldl (fun m b => m.lub b.mode) Mode.Constant

/-- The ten decimal digit characters, least to greatest. -/
def digitChars : List Char :=
  ['0', '1', '2', '3', '4', '5', '6', '7', '8', '9']

/-- Whether a character is a decimal digit. -/
def isDigitCh (c : Char) : Bool :=
  digitChars.contains c

/-- Numeric value of a list of decimal digit characters, most significant
first (the semantics of Rust's `str::parse` on a plain digit string). -/
def digitsToNat (ds : List Char) : Nat :=
  ds.foldl (fun a c => 10 * a + (c.toNat - 48)) 0

/-- Decimal digits of `n`, most significant first, accumulated onto
`acc` (the semantics of Rust's `Display` for unsigned primitives); the
structural fuel is at least `n + 1` at every call site, so the `0` arm is
never reached. -/
def natDecimalGo : Nat → Nat → List Char → List Char
  | 0, _, acc => acc
  | fuel + 1, n, acc =>
      if n < 10 then Char.ofNat (48 + n % 10) :: acc
      else natDecimalGo fuel (n / 10) (Char.ofNat (48 + n % 10) :: acc)

/-- Decimal rendering of a natural number, most significant digit first. -/
def natDecimal (n : Nat) : List Char :=
  natDecimalGo (n + 1) n []

/-- Decimal rendering of an integer: a leading minus sign for negatives,
then the decimal digits of the absolute value (the semantics of Rust's
`Display` for primitive integers). -/
def intDecimal (i : Int) : List Char :=
  (if i < 0 then ['-'] else []) ++ natDecimal i.natAbs

/-- A width/signedness descriptor: the `IntegerType` trait of the source,
reproduced as data.  `bits` is the bit width, `signed` the signedness. -/
structure IntegerType : Type where
  bits : Nat
  signed : Bool
deriving DecidableEq, Repr

/-- Number of bit patterns of the descriptor: `2 ^ bits`. -/
def IntegerType.modulus (I : IntegerType) : Nat :=
  2 ^ I.bits

/-- The dual descriptor: same width, opposite signedness (`I::Dual`). -/
def IntegerType.dual (I : IntegerType) : IntegerType :=
  { bits := I.bits, signed := !I.signed }

/-- Smallest native value of the descriptor (`I::MIN`), as an integer. -/
def IntegerType.minInt (I : IntegerType) : Int :=
  if I.signed then -((2 ^ (I.bits - 1) : Nat) : Int) else 0

/-- Largest native value of the descriptor (`I::MAX`), as an integer. -/
def IntegerType.maxInt (I : IntegerType) : Int :=
  if I.signed then ((2 ^ (I.bits - 1) : Nat) : Int) - 1 else ((2 ^ I.bits : Nat) : Int) - 1

/-- Interpreted (two's-complement) value of a bit pattern of the
descriptor: patterns with the sign bit set denote negative values for
signed descriptors. -/
def IntegerType.reprInt (I : IntegerType) (p : Nat) : Int :=
  if I.signed && decide (2 ^ (I.bits - 1) ≤ p) then (p : Int) - ((2 ^ I.bits : Nat) : Int)
  else (p : Int)

/-- Modelled from the spec: `I::type_name()` (utilities crate, not under
`src/`) is the Rust primitive name: a signedness letter followed by the
decimal width, e.g. `u8`, `i128`. -/
def IntegerType.type_name (I : IntegerType) : List Char :=
  (if I.signed then 'i' else 'u') :: natDecimal I.bits

/-- The ten descriptors supported by the source (`i8` … `u128`). -/
def IntegerType.supported (I : IntegerType) : Prop :=
  I.bits = 8 ∨ I.bits = 16 ∨ I.bits = 32 ∨ I.bits = 64 ∨ I.bits = 128

instance (I : IntegerType) : Decidable I.supported := by
  unfold IntegerType.supported
  infer_instance

def i8 : IntegerType := { bits := 8, signed := true }
def i16 : IntegerType := { bits := 16, signed := true }
def i32 : IntegerType := { bits := 32, signed := true }
def i64 : IntegerType := { bits := 64, signed := true }
def i128 : IntegerType := { bits := 128, signed := true }
def u8 : IntegerType := { bits := 8, signed := false }
def u16 : IntegerType := { bits := 16, signed := false }
def u32 : IntegerType := { bits := 32, signed := false }
def u64 : IntegerType := { bits := 64, signed := false }
def u128 : IntegerType := { bits := 128, signed := false }

/-- The integer gadget: `struct Integer<E, I> { bits_le: Vec<Boolean<E>>, … }`,
a sequence of boolean wires, least significant first. -/
structure IntegerW (I : IntegerType) : Type where
  bits_le : List BooleanW
deriving DecidableEq, Repr

/-- Modelled from the spec: `from_bits_le` (module `from_bits`, declared
in the source file but not under `src/`) stores the given wires in order
as the integer's little-endian bit vector; per §4.1 injection hands it
exactly `width(T)` wires and the construction cannot fail. -/
def Integer.from_bits_le (I : IntegerType) (bs : List BooleanW) : IntegerW I :=
  { bits_le := bs }

/-- Rust `wrapping_shr(1)` on a bit pattern of descriptor `I`: logical
shift right for unsigned descriptors, arithmetic (sign-extending) shift
right for signed ones.  The shift amount `1` is below every supported
width, so the amount is never masked. -/
def wrappingShr1 (I : IntegerType) (v : Nat) : Nat :=
  if I.signed && v.testBit (I.bits - 1) then v / 2 + 2 ^ (I.bits - 1)
  else v / 2

/-- Rust `wrapping_shl(1)` on a bit pattern of descriptor `I`. -/
def wrappingShl1 (I : IntegerType) (v : Nat) : Nat :=
  (2 * v) % 2 ^ I.bits

/-- The bit-decomposition loop of `Inject::new`: `count` iterations of
pushing `Boolean::new(mode, value & 1 == 1)` and then
`value = value.wrapping_shr(1)`. -/
def Integer.newBits (I : IntegerType) (mode : Mode) : Nat → Nat → List BooleanW
  | 0, _ => []
  | count + 1, value =>
      BooleanW.new mode (value % 2 == 1) :: Integer.newBits I mode count (wrappingShr1 I value)

/-- `Inject::new(mode, value)`: decompose the native value (`to_le` is the
numeric identity) into `I::BITS` wires, least significant first, and hand
them to `from_bits_le`. -/
def Integer.new (I : IntegerType) (mode : Mode) (value : Nat) : IntegerW I :=
  Integer.from_bits_le I (Integer.newBits I mode I.bits value)

/-- `cast_as_dual`: reuse the very same wire vector under the dual
descriptor. -/
def Integer.castAsDual {I : IntegerType} (x : IntegerW I) : IntegerW I.dual :=
  { bits_le := x.bits_le }

/-- `Eject::eject_mode`: delegate to the environment over the wire
vector. -/
def Integer.eject_mode {I : IntegerType} (x : IntegerW I) : Mode :=
  Env.eject_mode x.bits_le

/-- `Eject::eject_value`: fold the wires most significant first, shifting
the accumulator left (wrapping) and xor-ing in the revealed bit. -/
def Integer.eject_value {I : IntegerType} (x : IntegerW I) : Nat :=
  x.bits_le.reverse.foldl
    (fun value bit =>
      match bit.value with
      | true => wrappingShl1 I value ^^^ 1
      | false => wrappingShl1 I value ^^^ 0)
    0

/-- `From<&Integer<E, I>> for LinearCombination`: accumulate each bit
scaled by a coefficient that starts at one and doubles per position.  The
linear combination is modelled by the base-field element it evaluates to
under the wires' revealed values. -/
def Integer.toLinearCombination {I : IntegerType} (F : Type) [CommRing F]
    (x : IntegerW I) : F :=
  (x.bits_le.foldl
    (fun acc bit =>
      (acc.1 + (if bit.value then (1 : F) else 0) * acc.2, acc.2 + acc.2))
    ((0 : F), (1 : F))).1

/-- Modelled from the spec: `Display` for `Mode` (environment crate, not
under `src/`) prints the keyword `constant`, `public` or `private`; the
source file's own tests pin exactly these suffixes. -/
def Mode.keyword : Mode → List Char
  | Mode.Constant => "constant".toList
  | Mode.Public => "public".toList
  | Mode.Private => "private".toList

/-- `Display::fmt`: the ejected value, then the type suffix, a dot and
the mode keyword. -/
def Integer.display {I : IntegerType} (x : IntegerW I) : List Char :=
  intDecimal (I.reprInt (Integer.eject_value x)) ++ I.type_name
    ++ '.' :: (Integer.eject_mode x).keyword

/-- `Debug::fmt`: only the ejected value (Rust's `{:?}` on a primitive
integer coincides with `{}`). -/
def Integer.debugFmt {I : IntegerType} (x : IntegerW I) : List Char :=
  intDecimal (I.reprInt (Integer.eject_value x))

/-- A parser in the style of nom: consume a prefix of the input, return
the remaining input and a parsed value, or fail. -/
def ParserFn (α : Type) : Type :=
  List Char → Option (List Char × α)

/-- nom `tag(t)`: succeed exactly when the input starts with `t`. -/
def pTag (t : List Char) : ParserFn (List Char) := fun s =>
  if t.isPrefixOf s then some (s.drop t.length, t) else none

/-- nom `char(c)`: consume exactly the character `c`. -/
def pChar (c : Char) : ParserFn Char := fun s =>
  match s with
  | [] => none
  | c' :: rest => if c' = c then some (rest, c') else none

/-- nom `one_of(cs)`: consume one character drawn from `cs`. -/
def pOneOf (cs : List Char) : ParserFn Char := fun s =>
  match s with
  | [] => none
  | c :: rest => if cs.contains c then some (rest, c) else none

/-- nom `opt(p)`: always succeed, wrapping `p`'s result in an option. -/
def pOpt {α : Type} (p : ParserFn α) : ParserFn (Option α) := fun s =>
  match p s with
  | some (s', a) => some (s', some a)
  | none => some (s, none)

/-- nom `pair(a, b)`: run `a` then `b`, return both results. -/
def pPair {α β : Type} (a : ParserFn α) (b : ParserFn β) : ParserFn (α × β) := fun s =>
  match a s with
  | none => none
  | some (s', x) =>
      match b s' with
      | none => none
      | some (s'', y) => some (s'', (x, y))

/-- nom `terminated(a, b)`: run `a` then `b`, return `a`'s result. -/
def pTerminated {α β : Type} (a : ParserFn α) (b : ParserFn β) : ParserFn α := fun s =>
  match a s with
  | none => none
  | some (s', x) =>
      match b s' with
      | none => none
      | some (s'', _) => some (s'', x)

/-- Iteration core of nom `many0(p)`: repeat `p` while it succeeds and
consumes input (nom stops a non-consuming parser), with explicit fuel
that is at least the input length at every call site. -/
def many0Go {α : Type} (p : ParserFn α) : Nat → List Char → List Char × List α
  | 0, s => (s, [])
  | fuel + 1, s =>
      match p s with
      | none => (s, [])
      | some (s', a) =>
          if s'.length < s.length then
            let r := many0Go p fuel s'
            (r.1, a :: r.2)
          else (s, [])

/-- nom `many0(p)`. -/
def pMany0 {α : Type} (p : ParserFn α) : ParserFn (List α) := fun s =>
  some ((many0Go p s.length s).1, (many0Go p s.length s).2)

/-- nom `many1(p)`: `p` once, then `many0(p)`. -/
def pMany1 {α : Type} (p : ParserFn α) : ParserFn (List α) := fun s =>
  match p s with
  | none => none
  | some (s', a) =>
      let r := many0Go p s'.length s'
      some (r.1, a :: r.2)

/-- nom `recognize(p)`: run `p` and return the consumed input slice. -/
def pRecognize {α : Type} (p : ParserFn α) : ParserFn (List Char) := fun s =>
  match p s with
  | none => none
  | some (s', _) => some (s', s.take (s.length - s'.length))

/-- Modelled from the spec: `Mode::parse` (environment crate, not under
`src/`) accepts exactly one of the keywords `constant`, `public`,
`private`. -/
def Mode.parse : ParserFn Mode := fun s =>
  if ("constant".toList).isPrefixOf s then some (s.drop 8, Mode.Constant)
  else if ("public".toList).isPrefixOf s then some (s.drop 6, Mode.Public)
  else if ("private".toList).isPrefixOf s then some (s.drop 7, Mode.Private)
  else none

/-- Rust `str::parse::<I>` restricted to the strings the integer parser
hands it (an optional minus sign followed by decimal digits): an unsigned
descriptor rejects any minus sign, the value must lie in
`[I::MIN, I::MAX]`, and the result is returned as a bit pattern. -/
def parseNative (I : IntegerType) (s : List Char) : Option Nat :=
  match s with
  | [] => none
  | c :: ds =>
      if c = '-' then
        if I.signed && !ds.isEmpty && ds.all isDigitCh then
          let v : Int := -(digitsToNat ds : Int)
          if I.minInt ≤ v then some ((v % ((2 ^ I.bits : Nat) : Int)).toNat) else none
        else none
      else
        if (c :: ds).all isDigitCh then
          let n := digitsToNat (c :: ds)
          if (n : Int) ≤ I.maxInt then some n else none
        else none

/-- `Parser::parse`: an optional `-`, one or more decimal digits with
optional underscore separators, the type suffix, and an optional `.` plus
mode keyword; underscores are removed before native conversion, and a
missing mode defaults to `Constant`. -/
def Integer.parse (I : IntegerType) (s : List Char) : Option (List Char × IntegerW I) :=
  match pOpt (pTag ['-']) s with
  | none => none
  | some (s1, neg) =>
    let negation : List Char := match neg with | some t => t | none => []
    match pRecognize (pMany1 (pTerminated (pOneOf digitChars) (pMany0 (pChar '_')))) s1 with
    | none => none
    | some (s2, primitive) =>
      match pTag I.type_name s2 with
      | none => none
      | some (s3, _) =>
        match parseNative I ((negation ++ primitive).filter (fun c => !(c == '_'))) with
        | none => none
        | some value =>
          match pOpt (pPair (pTag ['.']) Mode.parse) s3 with
          | none => none
          | some (s4, mode) =>
            match mode with
            | some (_, mode) => some (s4, Integer.new I mode value)
            | none => some (s4, Integer.new I Mode.Constant value)

/-- Little-endian numeric value of a list of bits. -/
def lval : List Bool → Nat
  | [] => 0
  | b :: t => (if b then 1 else 0) + 2 * lval t

/-- Whether a string is a nonempty run of decimal-digit groups, each group
one digit followed by optional underscores: equivalently, a nonempty string
over digits and underscores whose first character is a digit. -/
def goodGroups : List Char → Bool
  | [] => false
  | c :: tl => isDigitCh c && tl.all (fun c => isDigitCh c || c == '_')

/-- Whether a string is empty or starts with a character that is neither a
digit nor an underscore (so the digit scanner stops right before it). -/
def notDU : List Char → Bool
  | [] => true
  | c :: _ => !(isDigitCh c || c == '_')

theorem xor_two_mul_one (a : Nat) : (2 * a) ^^^ 1 = 2 * a + 1 := by
  apply Nat.eq_of_testBit_eq
  intro i
  rw [Nat.testBit_xor]
  cases i with
  | zero =>
      simp [Nat.testBit_zero, Nat.mul_add_mod, Nat.mul_mod_right]
  | succ j =>
      have hp : 0 < 2 ^ j := Nat.pow_pos (by omega)
      have h2p : 2 ^ (j + 1) = 2 ^ j * 2 := Nat.pow_succ 2 j
      have h1 : Nat.testBit 1 (j + 1) = false :=
        Nat.testBit_lt_two_pow (by omega)
      rw [h1, Nat.testBit_succ, Nat.testBit_succ]
      have h2 : 2 * a / 2 = a := by omega
      have h3 : (2 * a + 1) / 2 = a := by omega
      rw [h2, h3]
      simp

theorem wrappingShr1_lt (I : IntegerType) (v : Nat) (hv : v < 2 ^ I.bits) :
    wrappingShr1 I v < 2 ^ I.bits := by
  unfold wrappingShr1
  split
  case isTrue h =>
    rw [Bool.and_eq_true] at h
    have hge : 2 ^ (I.bits - 1) ≤ v := Nat.testBit_implies_ge h.2
    have hb : I.bits ≠ 0 := by
      intro h0
      rw [h0] at hge hv
      simp at hge hv
      omega
    have hpow : 2 ^ I.bits = 2 ^ (I.bits - 1) * 2 := by
      conv_lhs => rw [← Nat.succ_pred_eq_of_pos (Nat.pos_of_ne_zero hb)]
      exact Nat.pow_succ 2 _
    omega
  case isFalse h =>
    omega

theorem testBit_wrappingShr1 (I : IntegerType) (v j : Nat)
    (hj : j + 1 < I.bits) : (wrappingShr1 I v).testBit j = v.testBit (j + 1) := by
  unfold wrappingShr1
  split
  case isTrue h =>
    rw [Nat.add_comm, Nat.testBit_two_pow_add_gt (by omega), Nat.testBit_div_two]
  case isFalse h =>
    rw [Nat.testBit_div_two]

theorem newBits_eq_map (I : IntegerType) (m : Mode) (k : Nat) :
    ∀ v : Nat, k ≤ I.bits → v < 2 ^ I.bits →
      Integer.newBits I m k v = (List.range k).map (fun j => BooleanW.new m (v.testBit j)) := by
  induction k with
  | zero =>
      intro v _ _
      simp [Integer.newBits]
  | succ k ih =>
      intro v hk hv
      rw [List.range_succ_eq_map, List.map_cons, List.map_map]
      rw [Integer.newBits]
      congr 1
      · have hbit : (v % 2 == 1) = v.testBit 0 := by
          rw [Nat.testBit_zero]
          rcases Nat.mod_two_eq_zero_or_one v with h | h <;> rw [h] <;> rfl
        rw [hbit]
      · rw [ih (wrappingShr1 I v) (by omega) (wrappingShr1_lt I v hv)]
        apply List.map_congr_left
        intro j hj
        rw [List.mem_range] at hj
        simp only [Function.comp]
        rw [testBit_wrappingShr1 I v j (by omega)]

theorem lval_map_testBit (w : Nat) :
    ∀ v : Nat, v < 2 ^ w → lval ((List.range w).map v.testBit) = v := by
  induction w with
  | zero =>
      intro v hv
      simp [lval] at hv ⊢
      omega
  | succ w ih =>
      intro v hv
      rw [List.range_succ_eq_map, List.map_cons, List.map_map]
      rw [lval]
      have hmap : (List.range w).map (v.testBit ∘ Nat.succ) = (List.range w).map (v / 2).testBit := by
        apply List.map_congr_left
        intro j _
        simp only [Function.comp]
        rw [Nat.testBit_succ]
      have hpow : 2 ^ (w + 1) = 2 ^ w * 2 := Nat.pow_succ 2 w
      rw [hmap, ih (v / 2) (by omega)]
      rw [Nat.testBit_zero]
      rcases Nat.mod_two_eq_zero_or_one v with h | h <;> rw [h] <;> simp <;> omega

theorem eject_fold (I : IntegerType) :
    ∀ (l : List BooleanW) (a : Nat),
      a * 2 ^ l.length + lval (l.map BooleanW.value) < 2 ^ I.bits →
      l.reverse.foldl
        (fun value bit =>
          match bit.value with
          | true => wrappingShl1 I value ^^^ 1
          | false => wrappingShl1 I value ^^^ 0)
        a
      = a * 2 ^ l.length + lval (l.map BooleanW.value) := by
  intro l
  induction l with
  | nil =>
      intro a _
      simp [lval]
  | cons b t ih =>
      intro a ha
      have hpow : 2 ^ (t.length + 1) = 2 ^ t.length * 2 := Nat.pow_succ 2 t.length
      have hlv : lval ((b :: t).map BooleanW.value)
          = (if b.value then 1 else 0) + 2 * lval (t.map BooleanW.value) := by
        rw [List.map_cons, lval]
      rw [List.length_cons] at ha ⊢
      rw [hlv] at ha ⊢
      rw [hpow, ← Nat.mul_assoc] at ha ⊢
      have hbv : (if b.value = true then (1 : Nat) else 0) ≤ 1 := by split <;> omega
      have hbnd : a * 2 ^ t.length + lval (t.map BooleanW.value) < 2 ^ I.bits := by omega
      rw [List.reverse_cons, List.foldl_append, List.foldl_cons, List.foldl_nil]
      rw [ih a hbnd]
      set A := a * 2 ^ t.length + lval (t.map BooleanW.value) with hA
      have h2A : 2 * A < 2 ^ I.bits := by omega
      have hshl : wrappingShl1 I A = 2 * A := by
        unfold wrappingShl1
        exact Nat.mod_eq_of_lt h2A
      rcases hb : b.value with _ | _
      · show wrappingShl1 I A ^^^ 0 = _
        rw [Nat.xor_zero, hshl]
        simp only [Bool.false_eq_true, if_false]
        omega
      · show wrappingShl1 I A ^^^ 1 = _
        rw [hshl, xor_two_mul_one]
        simp only [if_true]
        omega

theorem eject_value_new (I : IntegerType) (m : Mode) (v : Nat) (hv : v < 2 ^ I.bits) :
    Integer.eject_value (Integer.new I m v) = v := by
  unfold Integer.eject_value Integer.new Integer.from_bits_le
  simp only
  rw [newBits_eq_map I m I.bits v (le_refl _) hv]
  have hmap : ((List.range I.bits).map (fun j => BooleanW.new m (v.testBit j))).map BooleanW.value
      = (List.range I.bits).map v.testBit := by
    rw [List.map_map]
    rfl
  have hlen : ((List.range I.bits).map (fun j => BooleanW.new m (v.testBit j))).length = I.bits := by
    rw [List.length_map, List.length_range]
  have hlval : lval (((List.range I.bits).map (fun j => BooleanW.new m (v.testBit j))).map BooleanW.value) = v := by
    rw [hmap]
    exact lval_map_testBit I.bits v hv
  rw [eject_fold I _ 0 (by rw [hlval]; omega)]
  rw [hlval]
  omega

theorem eject_value_lt (I : IntegerType) (hb : 0 < I.bits) (x : IntegerW I) :
    Integer.eject_value x < 2 ^ I.bits := by
  unfold Integer.eject_value
  have hpw : 2 ^ I.bits = 2 ^ (I.bits - 1) * 2 := by
    conv_lhs => rw [← Nat.succ_pred_eq_of_pos hb]
    exact Nat.pow_succ 2 _
  have main : ∀ (l : List BooleanW) (a : Nat), a < 2 ^ I.bits →
      l.foldl
        (fun value bit =>
          match bit.value with
          | true => wrappingShl1 I value ^^^ 1
          | false => wrappingShl1 I value ^^^ 0)
        a < 2 ^ I.bits := by
    intro l
    induction l with
    | nil => intro a ha; simpa using ha
    | cons b t ih =>
        intro a ha
        rw [List.foldl_cons]
        apply ih
        have hmod : wrappingShl1 I a = 2 * (a % 2 ^ (I.bits - 1)) := by
          unfold wrappingShl1
          rw [hpw, Nat.mul_comm (2 ^ (I.bits - 1)) 2, Nat.mul_mod_mul_left]
        have hrem : a % 2 ^ (I.bits - 1) < 2 ^ (I.bits - 1) :=
          Nat.mod_lt a (Nat.pow_pos (by omega))
        rcases hbv : b.value with _ | _
        · show wrappingShl1 I a ^^^ 0 < 2 ^ I.bits
          rw [Nat.xor_zero, hmod]
          omega
        · show wrappingShl1 I a ^^^ 1 < 2 ^ I.bits
          rw [hmod, xor_two_mul_one]
          omega
  exact main x.bits_le.reverse 0 (Nat.pos_pow_of_pos I.bits (by omega))

theorem Mode.lub_self (m : Mode) : m.lub m = m := by
  cases m <;> rfl

theorem newBits_length (I : IntegerType) (m : Mode) (k : Nat) :
    ∀ v : Nat, (Integer.newBits I m k v).length = k := by
  induction k with
  | zero => intro v; rfl
  | succ k ih =>
      intro v
      rw [Integer.newBits, List.length_cons, ih]

theorem newBits_mode (I : IntegerType) (m : Mode) (k : Nat) :
    ∀ (v : Nat) (b : BooleanW), b ∈ Integer.newBits I m k v → b.mode = m := by
  induction k with
  | zero => intro v b hb; simp [Integer.newBits] at hb
  | succ k ih =>
      intro v b hb
      rw [Integer.newBits, List.mem_cons] at hb
      rcases hb with hb | hb
      · rw [hb]; rfl
      · exact ih (wrappingShr1 I v) b hb

theorem foldl_lub_uniform (m : Mode) :
    ∀ l : List BooleanW, (∀ b ∈ l, b.mode = m) →
      l.foldl (fun a b => a.lub b.mode) m = m := by
  intro l
  induction l with
  | nil => intro _; rfl
  | cons b t ih =>
      intro hm
      rw [List.foldl_cons, hm b (by simp), Mode.lub_self]
      exact ih (fun b hb => hm b (by simp [hb]))

theorem eject_mode_uniform (m : Mode) (l : List BooleanW) (hl : l ≠ [])
    (hm : ∀ b ∈ l, b.mode = m) : Env.eject_mode l = m := by
  cases l with
  | nil => exact absurd rfl hl
  | cons b t =>
      unfold Env.eject_mode
      rw [List.foldl_cons]
      have hb : b.mode = m := hm b (by simp)
      rw [hb]
      show t.foldl (fun a b => a.lub b.mode) (Mode.Constant.lub m) = m
      have hc : Mode.Constant.lub m = m := by cases m <;> rfl
      rw [hc]
      exact foldl_lub_uniform m t (fun b hb => hm b (by simp [hb]))

theorem eject_mode_new (I : IntegerType) (hb : 0 < I.bits) (m : Mode) (v : Nat) :
    Integer.eject_mode (Integer.new I m v) = m := by
  unfold Integer.eject_mode Integer.new Integer.from_bits_le
  apply eject_mode_uniform
  · intro h
    have h' : Integer.newBits I m I.bits v = [] := h
    have hlen := newBits_length I m I.bits v
    rw [h'] at hlen
    simp at hlen
    omega
  · exact newBits_mode I m I.bits v

theorem natDecimalGo_append (fuel : Nat) :
    ∀ (n : Nat) (acc : List Char), natDecimalGo fuel n acc = natDecimalGo fuel n [] ++ acc := by
  induction fuel with
  | zero => intro n acc; rfl
  | succ fuel ih =>
      intro n acc
      rw [natDecimalGo, natDecimalGo]
      split
      · rfl
      · rw [ih (n / 10) (Char.ofNat (48 + n % 10) :: acc), ih (n / 10) [Char.ofNat (48 + n % 10)]]
        rw [List.append_assoc]
        rfl

theorem natDecimalGo_fuel (fuel : Nat) :
    ∀ (fuel' n : Nat) (acc : List Char), n < fuel → n < fuel' →
      natDecimalGo fuel n acc = natDecimalGo fuel' n acc := by
  induction fuel with
  | zero => intro fuel' n acc h _; omega
  | succ fuel ih =>
      intro fuel' n acc h h'
      cases fuel' with
      | zero => omega
      | succ fuel' =>
          rw [natDecimalGo, natDecimalGo]
          split
          · rfl
          · exact ih fuel' (n / 10) _ (by omega) (by omega)

theorem natDecimal_base (n : Nat) (h : n < 10) :
    natDecimal n = [Char.ofNat (48 + n % 10)] := by
  unfold natDecimal
  rw [natDecimalGo]
  rw [if_pos h]

theorem natDecimal_step (n : Nat) (h : ¬n < 10) :
    natDecimal n = natDecimal (n / 10) ++ [Char.ofNat (48 + n % 10)] := by
  unfold natDecimal
  rw [natDecimalGo, if_neg h]
  rw [natDecimalGo_append]
  rw [natDecimalGo_fuel n (n / 10 + 1) (n / 10) [] (by omega) (by omega)]

theorem digit_char_mem : ∀ k : Nat, k < 10 → isDigitCh (Char.ofNat (48 + k)) = true := by
  decide

theorem digit_char_toNat : ∀ k : Nat, k < 10 → (Char.ofNat (48 + k)).toNat = 48 + k := by
  decide

theorem natDecimal_digits (n : Nat) :
    natDecimal n ≠ [] ∧ ∀ c ∈ natDecimal n, isDigitCh c = true := by
  induction n using Nat.strong_induction_on with
  | _ n ih =>
      by_cases h : n < 10
      · rw [natDecimal_base n h]
        refine ⟨by simp, ?_⟩
        intro c hc
        rw [List.mem_singleton] at hc
        rw [hc]
        exact digit_char_mem (n % 10) (by omega)
      · rw [natDecimal_step n h]
        have hrec := ih (n / 10) (by omega)
        refine ⟨by simp, ?_⟩
        intro c hc
        rw [List.mem_append] at hc
        rcases hc with hc | hc
        · exact hrec.2 c hc
        · rw [List.mem_singleton] at hc
          rw [hc]
          exact digit_char_mem (n % 10) (by omega)

theorem digitsToNat_append_digit (ds : List Char) (c : Char) :
    digitsToNat (ds ++ [c]) = 10 * digitsToNat ds + (c.toNat - 48) := by
  unfold digitsToNat
  rw [List.foldl_append, List.foldl_cons, List.foldl_nil]

theorem digitsToNat_natDecimal (n : Nat) : digitsToNat (natDecimal n) = n := by
  induction n using Nat.strong_induction_on with
  | _ n ih =>
      by_cases h : n < 10
      · rw [natDecimal_base n h]
        unfold digitsToNat
        rw [List.foldl_cons, List.foldl_nil]
        rw [digit_char_toNat (n % 10) (by omega)]
        omega
      · rw [natDecimal_step n h]
        rw [digitsToNat_append_digit, ih (n / 10) (by omega)]
        rw [digit_char_toNat (n % 10) (by omega)]
        omega

theorem pTag_append (t r : List Char) : pTag t (t ++ r) = some (r, t) := by
  unfold pTag
  rw [if_pos (List.isPrefixOf_iff_prefix.mpr (List.prefix_append t r))]
  rw [List.drop_left]

theorem pTag_single_cons_ne (c c' : Char) (s : List Char) (h : c' ≠ c) :
    pTag [c] (c' :: s) = none := by
  unfold pTag
  rw [if_neg]
  intro hp
  rw [List.isPrefixOf_iff_prefix] at hp
  exact h (List.cons_prefix_cons.mp hp).1.symm

theorem pTag_nil (c : Char) (t : List Char) : pTag (c :: t) [] = none := rfl

theorem pChar_cons_eq (c : Char) (rest : List Char) : pChar c (c :: rest) = some (rest, c) := by
  show (if c = c then some (rest, c) else none) = some (rest, c)
  rw [if_pos rfl]

theorem pChar_cons_ne (c c' : Char) (rest : List Char) (h : c' ≠ c) :
    pChar c (c' :: rest) = none := by
  show (if c' = c then some (rest, c') else none) = none
  rw [if_neg h]

theorem many0Go_pChar_underscore (fuel : Nat) :
    ∀ s : List Char, s.length ≤ fuel →
      (many0Go (pChar '_') fuel s).1 = s.dropWhile (fun c => c == '_') := by
  induction fuel with
  | zero =>
      intro s h
      have hs : s = [] := List.eq_nil_of_length_eq_zero (by omega)
      subst hs
      rfl
  | succ fuel ih =>
      intro s h
      cases s with
      | nil => rfl
      | cons c rest =>
          by_cases hc : c = '_'
          · subst hc
            rw [many0Go, pChar_cons_eq]
            show (if rest.length < ('_' :: rest).length then
                ((many0Go (pChar '_') fuel rest).1, '_' :: (many0Go (pChar '_') fuel rest).2)
              else ('_' :: rest, [])).1 = _
            rw [if_pos (by simp)]
            show (many0Go (pChar '_') fuel rest).1 = _
            rw [ih rest (by simp at h; omega)]
            rw [List.dropWhile_cons, if_pos (by rfl)]
          · rw [many0Go, pChar_cons_ne _ _ _ hc]
            show c :: rest = _
            rw [List.dropWhile_cons, if_neg (by simp [hc])]

theorem pGroup_cons_digit (d : Char) (rest : List Char) (hd : isDigitCh d = true) :
    pTerminated (pOneOf digitChars) (pMany0 (pChar '_')) (d :: rest)
      = some (rest.dropWhile (fun c => c == '_'), d) := by
  unfold pTerminated
  have h1 : pOneOf digitChars (d :: rest) = some (rest, d) := by
    show (if digitChars.contains d then some (rest, d) else none) = some (rest, d)
    rw [if_pos (show digitChars.contains d = true from hd)]
  rw [h1]
  show (match pMany0 (pChar '_') rest with
    | none => none
    | some (s'', _) => some (s'', d)) = _
  unfold pMany0
  rw [many0Go_pChar_underscore rest.length rest (le_refl _)]

theorem pGroup_notDU (s : List Char) (hs : notDU s = true) :
    pTerminated (pOneOf digitChars) (pMany0 (pChar '_')) s = none := by
  cases s with
  | nil => rfl
  | cons c rest =>
      rw [notDU] at hs
      have hd : digitChars.contains c = false := by
        rcases h : isDigitCh c with _ | _
        · exact h
        · rw [h] at hs; simp at hs
      unfold pTerminated
      have h1 : pOneOf digitChars (c :: rest) = none := by
        show (if digitChars.contains c then some (rest, c) else none) = none
        rw [hd]
        rfl
      rw [h1]

theorem dropWhile_underscore_append (tl rest : List Char) (hr : notDU rest = true) :
    (tl ++ rest).dropWhile (fun c => c == '_')
      = tl.dropWhile (fun c => c == '_') ++ rest := by
  induction tl with
  | nil =>
      cases rest with
      | nil => rfl
      | cons c r =>
          rw [notDU] at hr
          show List.dropWhile (fun c => c == '_') (c :: r) = c :: r
          rw [List.dropWhile_cons, if_neg]
          intro h
          rcases hd : isDigitCh c with _ | _ <;> rw [hd] at hr <;> simp at hr <;> simp [hr] at h
  | cons c tl ih =>
      rw [List.cons_append, List.dropWhile_cons, List.dropWhile_cons]
      by_cases hc : ((fun c => c == '_') c) = true
      · rw [if_pos hc, if_pos hc, ih]
      · rw [if_neg hc, if_neg hc, List.cons_append]

theorem dropWhile_good (tl : List Char)
    (htl : tl.all (fun c => isDigitCh c || c == '_') = true) :
    tl.dropWhile (fun c => c == '_') = []
      ∨ goodGroups (tl.dropWhile (fun c => c == '_')) = true := by
  induction tl with
  | nil => left; rfl
  | cons c tl ih =>
      rw [List.all_cons, Bool.and_eq_true] at htl
      rw [List.dropWhile_cons]
      by_cases hc : ((fun c => c == '_') c) = true
      · rw [if_pos hc]
        exact ih htl.2
      · rw [if_neg hc]
        right
        rw [goodGroups, Bool.and_eq_true]
        refine ⟨?_, htl.2⟩
        have := htl.1
        rcases hd : isDigitCh c with _ | _
        · rw [hd] at this
          simp at this
          simp [this] at hc
        · rfl

theorem many0Go_groups (fuel : Nat) :
    ∀ ds rest : List Char, (ds = [] ∨ goodGroups ds = true) → notDU rest = true →
      (ds ++ rest).length ≤ fuel →
      (many0Go (pTerminated (pOneOf digitChars) (pMany0 (pChar '_'))) fuel (ds ++ rest)).1
        = rest := by
  induction fuel with
  | zero =>
      intro ds rest h hr hlen
      rw [List.length_append] at hlen
      have h1 : ds = [] := List.eq_nil_of_length_eq_zero (by omega)
      have h2 : rest = [] := List.eq_nil_of_length_eq_zero (by omega)
      subst h1
      subst h2
      rfl
  | succ fuel ih =>
      intro ds rest h hr hlen
      rcases h with h | h
      · subst h
        rw [List.nil_append, many0Go, pGroup_notDU rest hr]
      · cases ds with
        | nil => simp [goodGroups] at h
        | cons d tl =>
            rw [goodGroups, Bool.and_eq_true] at h
            rw [List.cons_append, many0Go, pGroup_cons_digit d (tl ++ rest) h.1]
            rw [dropWhile_underscore_append tl rest hr]
            have hlt : (tl.dropWhile (fun c => c == '_') ++ rest).length
                < (d :: (tl ++ rest)).length := by
              rw [List.length_append, List.length_cons, List.length_append]
              have := List.Sublist.length_le (List.dropWhile_sublist (l := tl) (p := fun c => c == '_'))
              omega
            show (if (tl.dropWhile (fun c => c == '_') ++ rest).length < (d :: (tl ++ rest)).length
              then ((many0Go _ fuel (tl.dropWhile (fun c => c == '_') ++ rest)).1,
                d :: (many0Go _ fuel (tl.dropWhile (fun c => c == '_') ++ rest)).2)
              else (d :: (tl ++ rest), [])).1 = rest
            rw [if_pos hlt]
            show (many0Go _ fuel (tl.dropWhile (fun c => c == '_') ++ rest)).1 = rest
            apply ih _ _ (dropWhile_good tl h.2) hr
            simp only [List.cons_append, List.length_cons, List.length_append] at hlen
            rw [List.length_append]
            have := List.Sublist.length_le (List.dropWhile_sublist (l := tl) (p := fun c => c == '_'))
            omega

theorem scan_digits (ds rest : List Char) (hds : goodGroups ds = true)
    (hr : notDU rest = true) :
    pRecognize (pMany1 (pTerminated (pOneOf digitChars) (pMany0 (pChar '_')))) (ds ++ rest)
      = some (rest, ds) := by
  cases ds with
  | nil => simp [goodGroups] at hds
  | cons d tl =>
      rw [goodGroups, Bool.and_eq_true] at hds
      have hm1 : pMany1 (pTerminated (pOneOf digitChars) (pMany0 (pChar '_'))) ((d :: tl) ++ rest)
          = some (rest,
              d :: (many0Go (pTerminated (pOneOf digitChars) (pMany0 (pChar '_')))
                (tl.dropWhile (fun c => c == '_') ++ rest).length
                (tl.dropWhile (fun c => c == '_') ++ rest)).2) := by
        unfold pMany1
        rw [List.cons_append, pGroup_cons_digit d (tl ++ rest) hds.1,
          dropWhile_underscore_append tl rest hr]
        show some ((many0Go (pTerminated (pOneOf digitChars) (pMany0 (pChar '_')))
            (tl.dropWhile (fun c => c == '_') ++ rest).length
            (tl.dropWhile (fun c => c == '_') ++ rest)).1,
          d :: (many0Go (pTerminated (pOneOf digitChars) (pMany0 (pChar '_')))
            (tl.dropWhile (fun c => c == '_') ++ rest).length
            (tl.dropWhile (fun c => c == '_') ++ rest)).2) = _
        rw [many0Go_groups _ _ _ (dropWhile_good tl hds.2) hr (le_refl _)]
      unfold pRecognize
      rw [hm1]
      show some (rest, ((d :: tl) ++ rest).take (((d :: tl) ++ rest).length - rest.length))
        = some (rest, d :: tl)
      have hlen2 : ((d :: tl) ++ rest).length - rest.length = (d :: tl).length := by
        rw [List.length_append]
        omega
      rw [hlen2, List.take_left]

theorem Mode.parse_keyword (m : Mode) : Mode.parse m.keyword = some ([], m) := by
  cases m <;> decide

theorem filter_underscore_digits (ds : List Char) (h : ∀ c ∈ ds, isDigitCh c = true) :
    ds.filter (fun c => !(c == '_')) = ds := by
  apply List.filter_eq_self.mpr
  intro a ha
  have hd := h a ha
  rcases heq : (a == '_') with _ | _
  · rfl
  · have ha' : a = '_' := eq_of_beq heq
    rw [ha'] at hd
    exact absurd hd (by decide)

theorem parseNative_digits (I : IntegerType) (ds : List Char) (hne : ds ≠ [])
    (hall : ∀ c ∈ ds, isDigitCh c = true)
    (hle : (digitsToNat ds : Int) ≤ I.maxInt) :
    parseNative I ds = some (digitsToNat ds) := by
  cases ds with
  | nil => exact absurd rfl hne
  | cons c tl =>
      simp only [parseNative]
      have hc : isDigitCh c = true := hall c (by simp)
      have hcne : ¬(c = '-') := by
        intro h
        rw [h] at hc
        exact absurd hc (by decide)
      rw [if_neg hcne]
      have hallb : ((c :: tl).all isDigitCh) = true := by
        rw [List.all_eq_true]
        exact hall
      rw [if_pos hallb, if_pos hle]

theorem parseNative_neg (I : IntegerType) (hsig : I.signed = true) (ds : List Char)
    (hne : ds ≠ []) (hall : ∀ c ∈ ds, isDigitCh c = true)
    (hge : I.minInt ≤ -(digitsToNat ds : Int)) :
    parseNative I ('-' :: ds)
      = some ((-(digitsToNat ds : Int) % ((2 ^ I.bits : Nat) : Int)).toNat) := by
  simp only [parseNative]
  rw [if_pos trivial]
  have h1 : (I.signed && !ds.isEmpty && ds.all isDigitCh) = true := by
    rw [hsig]
    have h2 : ds.isEmpty = false := by
      cases ds with
      | nil => exact absurd rfl hne
      | cons c tl => rfl
    rw [h2]
    have h3 : (ds.all isDigitCh) = true := by
      rw [List.all_eq_true]
      exact hall
    rw [h3]
    rfl
  rw [if_pos h1, if_pos hge]

theorem parseNative_neg_unsigned (I : IntegerType) (hsig : I.signed = false)
    (s : List Char) : parseNative I ('-' :: s) = none := by
  simp only [parseNative]
  rw [if_pos trivial]
  rw [if_neg]
  rw [hsig]
  simp

theorem digit_ne_dash (c : Char) (h : isDigitCh c = true) : c ≠ '-' := by
  intro he
  rw [he] at h
  exact absurd h (by decide)

theorem notDU_type_name (I : IntegerType) (tail : List Char) :
    notDU (I.type_name ++ tail) = true := by
  unfold IntegerType.type_name
  rcases I.signed with _ | _ <;> rfl

theorem pOpt_mode_nil : pOpt (pPair (pTag ['.']) Mode.parse) [] = some ([], none) := rfl

theorem pOpt_mode_keyword (m : Mode) :
    pOpt (pPair (pTag ['.']) Mode.parse) ('.' :: m.keyword) = some ([], some (['.'], m)) := by
  have hp : pPair (pTag ['.']) Mode.parse ('.' :: m.keyword) = some ([], (['.'], m)) := by
    simp only [pPair, show ('.' :: m.keyword) = ['.'] ++ m.keyword from rfl, pTag_append,
      Mode.parse_keyword]
  simp only [pOpt, hp]

theorem parse_shape_gen (I : IntegerType) (sign : Bool) (ds : List Char)
    (hds : goodGroups ds = true) (tail s4 : List Char) (mopt : Option (List Char × Mode))
    (h5 : pOpt (pPair (pTag ['.']) Mode.parse) tail = some (s4, mopt)) :
    Integer.parse I ((if sign then ['-'] else []) ++ (ds ++ (I.type_name ++ tail)))
      = (parseNative I ((if sign then ['-'] else []) ++ ds.filter (fun c => !(c == '_')))).map
          (fun v => (s4,
            Integer.new I (match mopt with | some p => p.2 | none => Mode.Constant) v)) := by
  obtain ⟨d, tl, hdtl, hd⟩ : ∃ d tl, ds = d :: tl ∧ isDigitCh d = true := by
    cases ds with
    | nil => simp [goodGroups] at hds
    | cons d tl =>
        have h := hds
        rw [goodGroups, Bool.and_eq_true] at h
        exact ⟨d, tl, rfl, h.1⟩
  have h2 : pRecognize (pMany1 (pTerminated (pOneOf digitChars) (pMany0 (pChar '_'))))
      (ds ++ (I.type_name ++ tail)) = some (I.type_name ++ tail, ds) :=
    scan_digits ds _ hds (notDU_type_name I _)
  have h3 : pTag I.type_name (I.type_name ++ tail) = some (tail, I.type_name) :=
    pTag_append _ _
  rcases sign with _ | _
  · -- sign = false
    rw [if_neg (show ¬((false : Bool) = true) from by simp)]
    rw [List.nil_append, List.nil_append]
    have h1 : pOpt (pTag ['-']) (ds ++ (I.type_name ++ tail))
        = some (ds ++ (I.type_name ++ tail), none) := by
      rw [hdtl, List.cons_append]
      unfold pOpt
      rw [pTag_single_cons_ne '-' d (tl ++ (I.type_name ++ tail)) (digit_ne_dash d hd)]
    simp only [Integer.parse, h1, h2, h3, List.nil_append]
    cases hpv : parseNative I (ds.filter (fun c => !(c == '_'))) with
    | none => simp only [hpv, Option.map_none']
    | some v =>
        simp only [hpv, h5, Option.map_some']
        rcases mopt with _ | ⟨f, m⟩
        · rfl
        · rfl
  · -- sign = true
    rw [if_pos (show (true : Bool) = true from rfl)]
    rw [List.singleton_append, List.singleton_append]
    have h1 : pOpt (pTag ['-']) ('-' :: (ds ++ (I.type_name ++ tail)))
        = some (ds ++ (I.type_name ++ tail), some ['-']) := by
      unfold pOpt
      rw [show ('-' :: (ds ++ (I.type_name ++ tail)))
        = ['-'] ++ (ds ++ (I.type_name ++ tail)) from rfl, pTag_append]
    have h4 : (['-'] ++ ds).filter (fun c => !(c == '_'))
        = '-' :: ds.filter (fun c => !(c == '_')) := by
      simp
    simp only [Integer.parse, h1, h2, h3, h4, List.singleton_append]
    have h4' : List.filter (fun c => !(c == '_')) ('-' :: ds)
        = '-' :: ds.filter (fun c => !(c == '_')) := by
      simp
    rw [h4']
    cases hpv : parseNative I ('-' :: ds.filter (fun c => !(c == '_'))) with
    | none => simp only [hpv, Option.map_none']
    | some v =>
        simp only [hpv, h5, Option.map_some']
        rcases mopt with _ | ⟨f, m⟩
        · rfl
        · rfl

theorem parse_shape (I : IntegerType) (sign : Bool) (ds : List Char)
    (hds : goodGroups ds = true) (mo : Option Mode) :
    Integer.parse I ((if sign then ['-'] else [])
        ++ (ds ++ (I.type_name ++ (match mo with | some m => '.' :: m.keyword | none => []))))
      = (parseNative I ((if sign then ['-'] else []) ++ ds.filter (fun c => !(c == '_')))).map
          (fun v => (([] : List Char), Integer.new I (mo.getD Mode.Constant) v)) := by
  rcases mo with _ | m
  · exact parse_shape_gen I sign ds hds [] [] none pOpt_mode_nil
  · exact parse_shape_gen I sign ds hds ('.' :: m.keyword) [] (some (['.'], m))
      (pOpt_mode_keyword m)

theorem goodGroups_natDecimal (n : Nat) : goodGroups (natDecimal n) = true := by
  obtain ⟨hne, hall⟩ := natDecimal_digits n
  cases h : natDecimal n with
  | nil => exact absurd h hne
  | cons c tl =>
      rw [goodGroups, Bool.and_eq_true]
      constructor
      · exact hall c (h ▸ List.mem_cons_self c tl)
      · rw [List.all_eq_true]
        intro x hx
        have := hall x (h ▸ List.mem_cons_of_mem c hx)
        rw [this]
        rfl

theorem reprInt_neg_iff (I : IntegerType) (v : Nat) (hv : v < 2 ^ I.bits) :
    I.reprInt v < 0 ↔ (I.signed && decide (2 ^ (I.bits - 1) ≤ v)) = true := by
  unfold IntegerType.reprInt
  split
  case isTrue h =>
    exact iff_of_true (by omega) h
  case isFalse h =>
    refine iff_of_false (by omega) ?_
    simp [h]

theorem parseNative_repr_nonneg (I : IntegerType) (v : Nat) (hv : v < 2 ^ I.bits)
    (hnn : ¬ I.reprInt v < 0) :
    parseNative I (natDecimal (I.reprInt v).natAbs) = some v := by
  have hcond : (I.signed && decide (2 ^ (I.bits - 1) ≤ v)) = false := by
    rcases h : (I.signed && decide (2 ^ (I.bits - 1) ≤ v)) with _ | _
    · rfl
    · exact absurd ((reprInt_neg_iff I v hv).mpr h) hnn
  have hrepr : I.reprInt v = (v : Int) := by
    unfold IntegerType.reprInt
    rw [hcond]
    simp
  rw [hrepr, Int.natAbs_ofNat]
  obtain ⟨hne, hall⟩ := natDecimal_digits v
  have hle : (digitsToNat (natDecimal v) : Int) ≤ I.maxInt := by
    rw [digitsToNat_natDecimal]
    unfold IntegerType.maxInt
    rcases hs : I.signed with _ | _
    · simp only [Bool.false_eq_true, if_false]
      omega
    · rw [hs] at hcond
      rw [Bool.true_and] at hcond
      have hvv : v < 2 ^ (I.bits - 1) := by
        have := of_decide_eq_false hcond
        omega
      simp only [if_true]
      omega
  have h := parseNative_digits I _ hne hall hle
  rw [digitsToNat_natDecimal] at h
  exact h

theorem parseNative_repr_neg (I : IntegerType) (hb : 0 < I.bits) (v : Nat)
    (hv : v < 2 ^ I.bits) (hn : I.reprInt v < 0) :
    parseNative I ('-' :: natDecimal (I.reprInt v).natAbs) = some v := by
  have hcond := (reprInt_neg_iff I v hv).mp hn
  have hcond' := hcond
  rw [Bool.and_eq_true] at hcond'
  have hs : I.signed = true := hcond'.1
  have hge : 2 ^ (I.bits - 1) ≤ v := of_decide_eq_true hcond'.2
  have hpowN : 2 ^ I.bits = 2 * 2 ^ (I.bits - 1) := by
    conv_lhs => rw [show I.bits = (I.bits - 1) + 1 from by omega]
    ring
  have hrepr : I.reprInt v = (v : Int) - ((2 ^ I.bits : Nat) : Int) := by
    unfold IntegerType.reprInt
    rw [hcond]
    simp
  have habs : (I.reprInt v).natAbs = 2 ^ I.bits - v := by
    rw [hrepr]
    omega
  rw [habs]
  obtain ⟨hne, hall⟩ := natDecimal_digits (2 ^ I.bits - v)
  have hmin : I.minInt ≤ -(digitsToNat (natDecimal (2 ^ I.bits - v)) : Int) := by
    rw [digitsToNat_natDecimal]
    unfold IntegerType.minInt
    rw [hs]
    simp only [if_true]
    omega
  rw [parseNative_neg I hs _ hne hall hmin]
  congr 1
  rw [digitsToNat_natDecimal]
  have h1 : (-((2 ^ I.bits - v : Nat) : Int)) = (v : Int) + ((2 ^ I.bits : Nat) : Int) * (-1) := by
    omega
  rw [h1, Int.add_mul_emod_self_left,
    Int.emod_eq_of_lt (by omega) (by omega), Int.toNat_ofNat]

theorem supported_bits_pos (I : IntegerType) (hI : I.supported) : 0 < I.bits := by
  rcases hI with h | h | h | h | h <;> omega

theorem display_new (I : IntegerType) (hb : 0 < I.bits) (m : Mode) (v : Nat)
    (hv : v < 2 ^ I.bits) :
    Integer.display (Integer.new I m v)
      = intDecimal (I.reprInt v) ++ I.type_name ++ '.' :: m.keyword := by
  unfold Integer.display
  rw [eject_value_new I m v hv, eject_mode_new I hb m v]

/-- Claim C1: for every supported width/signedness descriptor, every mode,
and every native value (a bit pattern below `2 ^ width`, which includes the
patterns of `MIN` and `MAX`), ejecting the integer produced by injection
returns exactly the injected value. -/
theorem claim_C1 (I : IntegerType) (hI : I.supported) (m : Mode) (v : Nat)
    (hv : v < I.modulus) : Integer.eject_value (Integer.new I m v) = v :=
  eject_value_new I m v hv

theorem claim_C1_witness :
    i8.supported ∧ 128 < i8.modulus
      ∧ Integer.eject_value (Integer.new i8 Mode.Private 128) = 128 :=
  ⟨by decide, by decide, claim_C1 i8 (by decide) Mode.Private 128 (by decide)⟩

/-- Claim C4: injection and ejection are total at the representation layer:
for every supported descriptor, mode and native value, `new` returns an
integer with exactly `width` wires (the decomposition loop runs over
exactly `width` positions using wrapping shifts), and `eject_value` on any
integer returns a value inside the native range — no failure, panic or
halt is possible in the embedding of either operation. -/
theorem claim_C4 (I : IntegerType) (hI : I.supported) (m : Mode) (v : Nat) :
    (Integer.new I m v).bits_le.length = I.bits
      ∧ (∀ x : IntegerW I, Integer.eject_value x < I.modulus) := by
  refine ⟨newBits_length I m I.bits v, ?_⟩
  intro x
  exact eject_value_lt I (supported_bits_pos I hI) x

theorem claim_C4_witness :
    u128.supported
      ∧ ((Integer.new u128 Mode.Public 0).bits_le.length = u128.bits
        ∧ (∀ x : IntegerW u128, Integer.eject_value x < u128.modulus)) :=
  ⟨by decide, claim_C4 u128 (by decide) Mode.Public 0⟩

/-- Claim C5: for every supported descriptor, mode and native value, the
mode ejected from a freshly injected integer equals the injection mode,
where mode ejection returns the mode dominating all constituent wires. -/
theorem claim_C5 (I : IntegerType) (hI : I.supported) (m : Mode) (v : Nat) :
    Integer.eject_mode (Integer.new I m v) = m :=
  eject_mode_new I (supported_bits_pos I hI) m v

theorem claim_C5_witness :
    u16.supported ∧ Integer.eject_mode (Integer.new u16 Mode.Public 7) = Mode.Public :=
  ⟨by decide, claim_C5 u16 (by decide) Mode.Public 7⟩

/-- Claim C7: reinterpreting an integer as its dual type via `cast_as_dual`
reuses exactly the same wire sequence (the `bits_le` vector is identical,
so no wires are allocated), the ejected bit pattern is unchanged (the
dual's native value is the two's-complement reinterpretation of the
original), and the ejected mode is unchanged. -/
theorem claim_C7 (I : IntegerType) (x : IntegerW I) :
    (Integer.castAsDual x).bits_le = x.bits_le
      ∧ Integer.eject_value (Integer.castAsDual x) = Integer.eject_value x
      ∧ Integer.eject_mode (Integer.castAsDual x) = Integer.eject_mode x :=
  ⟨rfl, rfl, rfl⟩

theorem lc_fold (F : Type) [CommRing F] :
    ∀ (l : List BooleanW) (a c : F),
      (l.foldl
        (fun acc bit => (acc.1 + (if bit.value then (1 : F) else 0) * acc.2, acc.2 + acc.2))
        (a, c)).1
      = a + c * ∑ i ∈ Finset.range l.length,
          (if (l.getD i (BooleanW.new Mode.Constant false)).value then (1 : F) else 0) * 2 ^ i := by
  intro l
  induction l with
  | nil =>
      intro a c
      simp
  | cons b t ih =>
      intro a c
      rw [List.foldl_cons, ih, List.length_cons, Finset.sum_range_succ']
      simp only [List.getD_cons_succ, List.getD_cons_zero]
      have hsum : ∑ i ∈ Finset.range t.length,
          (if (t.getD i (BooleanW.new Mode.Constant false)).value then (1 : F) else 0) * 2 ^ (i + 1)
          = 2 * ∑ i ∈ Finset.range t.length,
              (if (t.getD i (BooleanW.new Mode.Constant false)).value then (1 : F) else 0) * 2 ^ i := by
        rw [Finset.mul_sum]
        apply Finset.sum_congr rfl
        intro i _
        ring
      rw [hsum]
      ring

/-- Claim C3: the linear-combination field embedding of an integer equals
the weighted sum, over all its bit positions (index 0 least significant),
of bit value times `2 ^ i`; the embedding accumulates each bit scaled by a
coefficient starting at one and doubling per position. -/
theorem claim_C3 (I : IntegerType) (F : Type) [CommRing F] (x : IntegerW I) :
    Integer.toLinearCombination F x
      = ∑ i ∈ Finset.range x.bits_le.length,
          (if (x.bits_le.getD i (BooleanW.new Mode.Constant false)).value then (1 : F) else 0)
            * 2 ^ i := by
  unfold Integer.toLinearCombination
  rw [lc_fold]
  ring

/-- Claim C6: every injected integer holds exactly `width` boolean wires in
little-endian order (wire `i` carries bit `i` of the native value, index 0
least significant), the vector is never empty, and dual reinterpretation
preserves the wire vector (so no operation of the file resizes it). -/
theorem claim_C6 (I : IntegerType) (hI : I.supported) (m : Mode) (v : Nat)
    (hv : v < I.modulus) (x : IntegerW I) :
    0 < (Integer.new I m v).bits_le.length
      ∧ (Integer.new I m v).bits_le.length = I.bits
      ∧ (∀ i, i < I.bits →
          ((Integer.new I m v).bits_le.getD i (BooleanW.new Mode.Constant false)).value
            = v.testBit i)
      ∧ (Integer.castAsDual x).bits_le = x.bits_le := by
  have hb := supported_bits_pos I hI
  have hlen : (Integer.new I m v).bits_le.length = I.bits := newBits_length I m I.bits v
  refine ⟨by rw [hlen]; exact hb, hlen, ?_, rfl⟩
  intro i hi
  have hbits : (Integer.new I m v).bits_le
      = (List.range I.bits).map (fun j => BooleanW.new m (v.testBit j)) :=
    newBits_eq_map I m I.bits v (le_refl _) hv
  rw [hbits]
  rw [List.getD_eq_getElem?_getD]
  rw [List.getElem?_map]
  rw [List.getElem?_range hi]
  rfl

/-- Claim C8: `Display` formats an integer as the ejected value, then the
type suffix, a dot and the mode keyword, while `Debug` formats only the
ejected value. -/
theorem claim_C8 (I : IntegerType) (hI : I.supported) (m : Mode) (v : Nat)
    (hv : v < I.modulus) :
    Integer.display (Integer.new I m v)
        = intDecimal (I.reprInt v) ++ I.type_name ++ '.' :: m.keyword
      ∧ Integer.debugFmt (Integer.new I m v) = intDecimal (I.reprInt v) := by
  have hb := supported_bits_pos I hI
  constructor
  · exact display_new I hb m v hv
  · unfold Integer.debugFmt
    rw [eject_value_new I m v hv]

theorem claim_C8_witness :
    i16.supported ∧ 3 < i16.modulus
      ∧ (Integer.display (Integer.new i16 Mode.Public 3)
          = intDecimal (i16.reprInt 3) ++ i16.type_name ++ '.' :: Mode.Public.keyword
        ∧ Integer.debugFmt (Integer.new i16 Mode.Public 3) = intDecimal (i16.reprInt 3)) :=
  ⟨by decide, by decide, claim_C8 i16 (by decide) Mode.Public 3 (by decide)⟩

theorem claim_C6_witness :
    u8.supported ∧ 5 < u8.modulus
      ∧ (0 < (Integer.new u8 Mode.Private 5).bits_le.length
        ∧ (Integer.new u8 Mode.Private 5).bits_le.length = u8.bits
        ∧ (∀ i, i < u8.bits →
            ((Integer.new u8 Mode.Private 5).bits_le.getD i
              (BooleanW.new Mode.Constant false)).value = Nat.testBit 5 i)
        ∧ (Integer.castAsDual (Integer.new u8 Mode.Public 9)).bits_le
            = (Integer.new u8 Mode.Public 9).bits_le) :=
  ⟨by decide, by decide,
    claim_C6 u8 (by decide) Mode.Private 5 (by decide) (Integer.new u8 Mode.Public 9)⟩

/-- Claim C2: for every supported descriptor, mode and native value,
parsing the Display output of a constructed integer succeeds, consumes the
whole string, and reproduces an integer with both mode and value
preserved. -/
theorem claim_C2 (I : IntegerType) (hI : I.supported) (m : Mode) (v : Nat)
    (hv : v < I.modulus) :
    ∃ x : IntegerW I, Integer.parse I (Integer.display (Integer.new I m v)) = some ([], x)
      ∧ Integer.eject_mode x = m ∧ Integer.eject_value x = v := by
  have hb : 0 < I.bits := supported_bits_pos I hI
  have hv' : v < 2 ^ I.bits := hv
  refine ⟨Integer.new I m v, ?_, eject_mode_new I hb m v, eject_value_new I m v hv'⟩
  rw [display_new I hb m v hv']
  unfold intDecimal
  have hfd := filter_underscore_digits (natDecimal (I.reprInt v).natAbs)
    (natDecimal_digits (I.reprInt v).natAbs).2
  have hmo : (match (some m : Option Mode) with
      | some m => '.' :: m.keyword | none => ([] : List Char)) = '.' :: m.keyword := rfl
  by_cases hn : I.reprInt v < 0
  · rw [if_pos hn]
    have hps := parse_shape I true (natDecimal (I.reprInt v).natAbs)
      (goodGroups_natDecimal _) (some m)
    rw [hmo] at hps
    rw [if_pos (show (true : Bool) = true from rfl)] at hps
    simp only [List.singleton_append] at hps
    rw [hfd] at hps
    rw [parseNative_repr_neg I hb v hv' hn] at hps
    simp only [List.append_assoc, List.singleton_append, List.cons_append, List.nil_append]
    rw [hps]
    rfl
  · rw [if_neg hn]
    have hps := parse_shape I false (natDecimal (I.reprInt v).natAbs)
      (goodGroups_natDecimal _) (some m)
    rw [hmo] at hps
    rw [if_neg (show ¬((false : Bool) = true) from by simp)] at hps
    rw [List.nil_append, List.nil_append] at hps
    rw [hfd] at hps
    rw [parseNative_repr_nonneg I v hv' hn] at hps
    simp only [List.append_assoc, List.nil_append]
    rw [hps]
    rfl

theorem claim_C2_witness :
    ∃ x : IntegerW i8,
      Integer.parse i8 (Integer.display (Integer.new i8 Mode.Private 128)) = some ([], x)
        ∧ Integer.eject_mode x = Mode.Private ∧ Integer.eject_value x = 128 :=
  claim_C2 i8 (by decide) Mode.Private 128 (by decide)

theorem filter_goodGroups (ds : List Char) (h : goodGroups ds = true) :
    ds.filter (fun c => !(c == '_')) ≠ []
      ∧ ∀ c ∈ ds.filter (fun c => !(c == '_')), isDigitCh c = true := by
  cases ds with
  | nil => simp [goodGroups] at h
  | cons d tl =>
      rw [goodGroups, Bool.and_eq_true] at h
      have hd : isDigitCh d = true := h.1
      have hdne : (d == '_') = false := by
        rcases hq : (d == '_') with _ | _
        · rfl
        · have hq' : d = '_' := eq_of_beq hq
          rw [hq'] at hd
          exact absurd hd (by decide)
      constructor
      · rw [List.filter_cons]
        simp [hdne]
      · intro c hc
        rw [List.mem_filter] at hc
        obtain ⟨hmem, hfl⟩ := hc
        rcases List.mem_cons.mp hmem with rfl | hmem'
        · exact hd
        · have hset := (List.all_eq_true.mp h.2) c hmem'
          rcases hq : (c == '_') with _ | _
          · rw [hq] at hset
            simpa using hset
          · rw [hq] at hfl
            simp at hfl

/-- Claim C9, as frozen, is refuted by the input `256u8`: it consists of
decimal digits and the correct `u8` suffix with no mode suffix, yet parse
fails because the value exceeds the native range, so the conversion inside
`map_res` errors out. -/
theorem claim_C9_counterexample : Integer.parse u8 ("256u8".toList) = none := by decide

/-- Claim C9 (amended): for every input of an optional leading minus sign
(for signed descriptors), one or more decimal digits with optional
underscore separators, and the correct type suffix but no mode suffix,
whose denoted value lies within the native range, parse succeeds and
returns an integer whose mode is Constant. -/
theorem claim_C9_amended_ok (I : IntegerType) (hI : I.supported) (sign : Bool)
    (ds : List Char) (hds : goodGroups ds = true)
    (hsig : sign = true → I.signed = true)
    (hrange : if sign
      then I.minInt ≤ -(digitsToNat (ds.filter (fun c => !(c == '_'))) : Int)
      else (digitsToNat (ds.filter (fun c => !(c == '_'))) : Int) ≤ I.maxInt) :
    ∃ x : IntegerW I,
      Integer.parse I ((if sign then ['-'] else []) ++ (ds ++ I.type_name)) = some ([], x)
        ∧ Integer.eject_mode x = Mode.Constant := by
  have hb : 0 < I.bits := supported_bits_pos I hI
  obtain ⟨hne, hall⟩ := filter_goodGroups ds hds
  have hps := parse_shape I sign ds hds none
  rw [show (match (none : Option Mode) with
      | some m => '.' :: m.keyword | none => ([] : List Char)) = [] from rfl] at hps
  rw [List.append_nil] at hps
  rcases sign with _ | _
  · rw [if_neg (show ¬((false : Bool) = true) from by simp)] at hps ⊢
    simp only [List.nil_append] at hps
    rw [if_neg (show ¬((false : Bool) = true) from by simp)] at hrange
    rw [parseNative_digits I _ hne hall hrange] at hps
    exact ⟨_, hps, eject_mode_new I hb Mode.Constant _⟩
  · rw [if_pos (show (true : Bool) = true from rfl)] at hps ⊢
    simp only [List.singleton_append] at hps
    rw [if_pos (show (true : Bool) = true from rfl)] at hrange
    rw [parseNative_neg I (hsig rfl) _ hne hall hrange] at hps
    exact ⟨_, hps, eject_mode_new I hb Mode.Constant _⟩

theorem claim_C9_amended_witness :
    ∃ x : IntegerW u8,
      Integer.parse u8 ((if false then ['-'] else []) ++ ("2_5".toList ++ u8.type_name))
          = some ([], x)
        ∧ Integer.eject_mode x = Mode.Constant :=
  claim_C9_amended_ok u8 (by decide) false ("2_5".toList) (by decide) (by decide) (by decide)

/-- Claim C10: for every unsigned supported descriptor and every input
beginning with a minus sign, parse returns an error and produces no
integer: the sign is prepended to the digit string and the native
conversion rejects it for unsigned types. -/
theorem claim_C10 (I : IntegerType) (hI : I.supported) (hsig : I.signed = false)
    (s : List Char) : Integer.parse I ('-' :: s) = none := by
  have h1 : pOpt (pTag ['-']) ('-' :: s) = some (s, some ['-']) := by
    unfold pOpt
    rw [show ('-' :: s) = ['-'] ++ s from rfl, pTag_append]
  simp only [Integer.parse, h1]
  cases h2 : pRecognize (pMany1 (pTerminated (pOneOf digitChars) (pMany0 (pChar '_')))) s with
  | none => rfl
  | some p =>
      obtain ⟨s2, prim⟩ := p
      simp only [h2]
      cases h3 : pTag I.type_name s2 with
      | none => rfl
      | some q =>
          obtain ⟨s3, tn⟩ := q
          simp only [h3]
          have h4 : (['-'] ++ prim).filter (fun c => !(c == '_'))
              = '-' :: prim.filter (fun c => !(c == '_')) := by
            simp
          rw [h4, parseNative_neg_unsigned I hsig]

theorem claim_C10_witness :
    u8.supported ∧ u8.signed = false ∧ Integer.parse u8 ('-' :: "5u8".toList) = none :=
  ⟨by decide, by decide, claim_C10 u8 (by decide) (by decide) ("5u8".toList)⟩
